import Mathlib

/-!
Verification of the chunked range-execution engine of go-chunk-update.

The definitions below are a shallow embedding of the Go sources
(`internal/chunk/chunk.go`, `internal/mysql/mysql.go`, `cmd` main):
strings become `List Char`, the MySQL session becomes explicit state,
fallible code returns `Outcome`/`Option`, and machine integers become
`Int`/`Nat`.  Each claim theorem is stated over these definitions.
-/

set_option maxRecDepth 4000

namespace GoChunk

/-! ## Basic string utilities (List Char based, all executable) -/

/-- Decimal digits of a natural number, with explicit fuel (the number of
digits of `n` is below `n + 1`). -/
def natCharsAux : Nat → Nat → List Char
  | 0, _ => []
  | fuel + 1, n =>
    if n < 10 then [Nat.digitChar n]
    else natCharsAux fuel (n / 10) ++ [Nat.digitChar (n % 10)]

/-- Decimal representation of a natural number (Go `%d` on a nonnegative int). -/
def natChars (n : Nat) : List Char := natCharsAux (n + 1) n

/-- Decimal representation of an integer (Go `%d`). -/
def intChars (i : Int) : List Char :=
  if i < 0 then '-' :: natChars i.natAbs else natChars i.natAbs

/-- Does the character `c` occur in `s`?  Embeds Go `strings.Contains` with a
one-character separator. -/
def containsChar (c : Char) : List Char → Bool
  | [] => false
  | x :: rest => x = c || containsChar c rest

/-- Split on a single character, keeping empty fields; embeds Go
`strings.Split` with a one-character separator (so `splitOnChar c [] = [[]]`,
exactly as `strings.Split("", sep)` yields one empty field). -/
def splitOnChar (sep : Char) : List Char → List (List Char)
  | [] => [[]]
  | c :: rest =>
    match splitOnChar sep rest with
    | [] => if c = sep then [[], []] else [[c]]
    | g :: gs => if c = sep then [] :: g :: gs else (c :: g) :: gs

/-- Join with a one-character separator; embeds Go `strings.Join(_, ",")`. -/
def joinWith (sep : Char) : List (List Char) → List Char
  | [] => []
  | [g] => g
  | g :: gs => g ++ sep :: joinWith sep gs

/-- Does `pat` occur as a contiguous substring of `s`? -/
def hasSubstr (pat : List Char) : List Char → Bool
  | [] => pat.isPrefixOf []
  | s@(_ :: rest) => pat.isPrefixOf s || hasSubstr pat rest

/-- Replace every occurrence of the (nonempty) pattern `pat` in `s` by `rep`,
scanning left to right; fuel-driven, each step consumes at least one input
character.  Embeds Go `strings.Replace(s, pat, rep, -1)` for nonempty `pat`. -/
def replaceAllAux (pat rep : List Char) : Nat → List Char → List Char
  | 0, s => s
  | fuel + 1, s =>
    if pat ≠ [] ∧ pat.isPrefixOf s then
      rep ++ replaceAllAux pat rep fuel (s.drop pat.length)
    else
      match s with
      | [] => []
      | c :: rest => c :: replaceAllAux pat rep fuel rest

/-- Replace every occurrence of `pat` in `s` by `rep` (Go
`strings.Replace(s, pat, rep, -1)` for nonempty `pat`). -/
def replaceAll (s pat rep : List Char) : List Char :=
  replaceAllAux pat rep s.length s

/-- Lower-case every character; embeds Go `strings.ToLower` (ASCII suffices
for the identifiers involved). -/
def toLowerChars (s : List Char) : List Char := s.map Char.toLower

/-- Embeds Go `strconv.Atoi`: optional sign followed by one or more decimal
digits and nothing else.  (Go additionally rejects values outside the 64-bit
range; the identifiers fed to this model are far below that bound.) -/
def parseDigits : List Char → Option Nat
  | [] => none
  | ds =>
    ds.foldl (fun acc c =>
      acc.bind fun n => if c.isDigit then some (10 * n + (c.toNat - 48)) else none)
      (some 0)

/-- Go `strconv.Atoi`. -/
def atoi : List Char → Option Int
  | '+' :: rest => (parseDigits rest).map Int.ofNat
  | '-' :: rest => (parseDigits rest).map fun n => -(n : Int)
  | s => (parseDigits s).map Int.ofNat

/-! ## Session-variable name vectors (chunk.go lines 245-275)

`getUniqueKeyMinValuesVariables` and its three siblings build
`"@unique_key_min_value_0,@unique_key_min_value_1,…"` over the key arity. -/

/-- `@<stem><i>` for `i < k`, comma-joined; embeds the four
`getUniqueKey*Variables` helpers of chunk.go. -/
def keyVariables (stem : List Char) (k : Nat) : List Char :=
  joinWith ',' ((List.range k).map fun i => '@' :: stem ++ natChars i)

def minValuesVariables (k : Nat) : List Char :=
  keyVariables "unique_key_min_value_".toList k

def maxValuesVariables (k : Nat) : List Char :=
  keyVariables "unique_key_max_value_".toList k

def rangeStartVariables (k : Nat) : List Char :=
  keyVariables "unique_key_range_start_".toList k

def rangeEndVariables (k : Nat) : List Char :=
  keyVariables "unique_key_range_end_".toList k

/-! ## Statement templates (chunk.go lines 305-316)

`ChunkUpdate` builds `firstQuery` and `restQuery` from the user statement by
`strings.Replace(executeQuery, "GO_CHUNK(" + table + ")", predicate, -1)`,
with a scalar predicate when the key arity is 1 and a parenthesised tuple
predicate otherwise. -/

/-- The literal sentinel `GO_CHUNK(<table>)` for the configured table name. -/
def sentinel (table : List Char) : List Char :=
  "GO_CHUNK(".toList ++ table ++ ")".toList

/-- The `firstQuery` template of `ChunkUpdate` (chunk.go lines 307 and 314):
cols is `Config.UniqueKeyColumnNames`, k is `Config.CountColumnsInUniqueKey`. -/
def firstQueryChars (executeQuery table cols : List Char) (k : Nat) : List Char :=
  if k = 1 then
    replaceAll executeQuery (sentinel table)
      (cols ++ " >= @unique_key_min_value_0 AND ".toList ++
        cols ++ " < @unique_key_range_end_0".toList)
  else
    replaceAll executeQuery (sentinel table)
      ('(' :: cols ++ ") >= (".toList ++ minValuesVariables k ++
        ") AND (".toList ++ cols ++ ") < (".toList ++ rangeEndVariables k ++ ")".toList)

/-- The `restQuery` template of `ChunkUpdate` (chunk.go lines 308 and 315). -/
def restQueryChars (executeQuery table cols : List Char) (k : Nat) : List Char :=
  if k = 1 then
    replaceAll executeQuery (sentinel table)
      (cols ++ " > @unique_key_range_start_0 AND ".toList ++
        cols ++ " < @unique_key_range_end_0".toList)
  else
    replaceAll executeQuery (sentinel table)
      ('(' :: cols ++ ") > (".toList ++ rangeStartVariables k ++
        ") AND (".toList ++ cols ++ ") < (".toList ++ rangeEndVariables k ++ ")".toList)

/-! ## Sentinel parsing and pre-database validation (chunk.go lines 757-782)

`runChunkUpdate` validates `--execute`, extracts the sentinel argument with
the regular expression `GO_CHUNK\(([^)]+)\)`, splits it on `.` to obtain the
table (and optionally the database) name, and checks a database is known.
No other validation happens before the database connection is opened. -/

/-- First capture group of the leftmost match of `GO_CHUNK\(([^)]+)\)`:
scan for the literal `GO_CHUNK(`, then take one or more non-`)` characters
followed by a closing `)`; on failure resume scanning one character later. -/
def findGoChunkArg : List Char → Option (List Char)
  | [] => none
  | s@(_ :: rest) =>
    if "GO_CHUNK(".toList.isPrefixOf s then
      let after := s.drop 9
      let arg := after.takeWhile (· ≠ ')')
      if arg ≠ [] ∧ after.drop arg.length ≠ [] then some arg
      else findGoChunkArg rest
    else findGoChunkArg rest

/-- The table name `runChunkUpdate` passes to the chunker: the last
`.`-separated token of the sentinel argument (chunk.go lines 773-774). -/
def parsedTableName (executeQuery : List Char) : Option (List Char) :=
  (findGoChunkArg executeQuery).map fun spec =>
    (splitOnChar '.' spec).getLastD []

/-- The validation phase of `runChunkUpdate` (chunk.go lines 757-782),
returning the error message printed before `os.Exit(1)`, or `none` when
execution proceeds to the database connection.  The `chunkSize` flag value is
passed (as `runChunkUpdate` could read it) but the source performs no
chunk-size check whatsoever before database work. -/
def runChunkUpdateValidate (execute database : List Char) (chunkSize : Int) :
    Option (List Char) :=
  let _ := chunkSize
  if execute = [] then some "Error: --execute is required".toList
  else
    match findGoChunkArg execute with
    | none => some "Error: Query must contain GO_CHUNK(table_name)".toList
    | some tableSpec =>
      let tableTokens := splitOnChar '.' tableSpec
      let dbName := if tableTokens.length = 2 then tableTokens.headI else database
      if dbName = [] then some "Error: No database specified".toList else none

/-! ## Session-variable store and the two hard-coded loop statements

The MySQL session variables are modelled as an association list from variable
name to integer value (first binding wins, as assignment prepends). -/

abbrev VarStore := List (List Char × Int)

def getVar (st : VarStore) (n : List Char) : Int :=
  match st.find? (fun p => p.1 = n) with
  | some p => p.2
  | none => 0

def setVar (st : VarStore) (n : List Char) (v : Int) : VarStore := (n, v) :: st

/-- The range-start advance executed at the end of every loop iteration,
chunk.go line 460: the statement is literally
`SELECT @unique_key_range_end_0 INTO @unique_key_range_start_0`, for every
key arity — it assigns only the component-0 session variable. -/
def advanceRangeStart (st : VarStore) : VarStore :=
  setVar st "unique_key_range_start_0".toList
    (getVar st "unique_key_range_end_0".toList)

/-- The overflow probe executed on every iteration after the first,
chunk.go line 427: the statement is literally
`SELECT @unique_key_range_start_0 >= @unique_key_max_value_0 AS overflow`,
for every key arity — it compares only the component-0 session variables. -/
def overflowCheck (st : VarStore) : Bool :=
  getVar st "unique_key_max_value_0".toList ≤ getVar st "unique_key_range_start_0".toList

/-- Lexicographic `≥` on equally long integer tuples, as the specification's
tuple comparison prescribes (spec §3 and §4.4 step 3). -/
def lexGe : List Int → List Int → Bool
  | [], [] => true
  | _ :: _, [] => true
  | [], _ :: _ => false
  | a :: as, b :: bs => if b < a then true else if a < b then false else lexGe as bs

/-! ## The chunk-driver loop (chunk.go lines 286-473, single-column key)

The table is a list of distinct key values sorted ascending (the chunking key
is drawn from a unique index).  Key values live in an arbitrary linear order
`α`: the server compares a single-column key with the same scalar `<`, `<=`,
`>=` whether it is integer, text or temporal, so one parameter covers every
single-column key type.  The session state that the loop actually consults is
`@unique_key_range_start_0` (advanced every iteration) together with the
immutable `@unique_key_min_value_0` / `@unique_key_max_value_0`;
`@unique_key_range_end_0` is freshly assigned on every iteration before any
use, so it lives only inside the step.

Per iteration the code:
  probes the endpoint with
  `SELECT key FROM (SELECT key FROM t WHERE key > @start AND key <= @max
   ORDER BY key LIMIT limit) t ORDER BY key DESC LIMIT 1`
  where `limit` is `ChunkSize` on the first round and `ChunkSize + 1` after
  (lines 341-352); on `sql.ErrNoRows` it assigns `end := max` (lines 354-365);
  breaks when not on the first round and `@start >= @max` (lines 425-434);
  executes `firstQuery` or `restQuery` (lines 436-445); and finally copies
  `end` into `start` and clears the first-round flag (lines 459-465). -/

variable {α : Type} [LinearOrder α]

/-- Rows satisfying the probe predicate
`key > @unique_key_range_start_0 AND key <= @unique_key_max_value_0`
(chunk.go line 347), in table order (ascending). -/
def candidates (keys : List α) (start maxv : α) : List α :=
  keys.filter fun k => decide (start < k) && decide (k ≤ maxv)

/-- The probe of chunk.go line 351: greatest key among the first `limit`
candidates, `none` on `sql.ErrNoRows`. -/
def probeEnd (keys : List α) (start maxv : α) (limit : Nat) : Option α :=
  ((candidates keys start maxv).take limit).getLast?

/-- One executed chunk statement: which template ran and the values of the
`start` and `end` session variables at execution time. -/
structure ChunkExec (α : Type) where
  isFirst : Bool
  lo : α
  hi : α
deriving DecidableEq

/-- Loop state across iterations of `ChunkUpdate`. -/
structure LoopSt (α : Type) where
  start : α
  firstRound : Bool
  chunks : List (ChunkExec α)
deriving DecidableEq

/-- Result of one loop iteration: either the `break` of line 432 (carrying
the chunks executed so far) or the next state. -/
inductive StepRes (α : Type) where
  | halt (chunks : List (ChunkExec α))
  | cont (s : LoopSt α)
deriving DecidableEq

/-- One iteration of the `for` loop of `ChunkUpdate` (chunk.go lines 339-466). -/
def chunkStep (keys : List α) (maxv : α) (chunkSize : Nat) (s : LoopSt α) :
    StepRes α :=
  let limit := if s.firstRound then chunkSize else chunkSize + 1
  let e := (probeEnd keys s.start maxv limit).getD maxv
  if ¬s.firstRound ∧ maxv ≤ s.start then .halt s.chunks
  else .cont ⟨e, false, s.chunks ++ [⟨s.firstRound, s.start, e⟩]⟩

/-- Run the loop for at most `fuel` iterations; `some chunks` means the loop
reached its `break` within `fuel` iterations (the breaking iteration
included), `none` that it was still running. -/
def chunkRun (keys : List α) (maxv : α) (chunkSize : Nat) :
    Nat → LoopSt α → Option (List (ChunkExec α))
  | 0, _ => none
  | fuel + 1, s =>
    match chunkStep keys maxv chunkSize s with
    | .halt chunks => some chunks
    | .cont s' => chunkRun keys maxv chunkSize fuel s'

/-- `ChunkUpdate` from its initial state: `start` seeded from `min`
(chunk.go lines 319-324) and the first-round flag set (line 337). -/
def chunkUpdate (keys : List α) (minv maxv : α) (chunkSize fuel : Nat) :
    Option (List (ChunkExec α)) :=
  chunkRun keys maxv chunkSize fuel ⟨minv, true, []⟩

/-- Does the chunk statement `c` target the row with key `k`?  From the
templates of chunk.go lines 307-308: `firstQuery` targets
`min <= k AND k < end`, `restQuery` targets `start < k AND k < end`. -/
def chunkTargets (minv : α) (c : ChunkExec α) (k : α) : Bool :=
  if c.isFirst then decide (minv ≤ k) && decide (k < c.hi)
  else decide (c.lo < k) && decide (k < c.hi)

/-- Is the row with key `k` targeted by at least one of the executed chunks? -/
def coveredByChunks (minv : α) (chunks : List (ChunkExec α)) (k : α) : Bool :=
  chunks.any fun c => chunkTargets minv c k

/-- Ceiling division, for the iteration bound of the termination claim. -/
def ceilDiv (a b : Nat) : Nat := (a + b - 1) / b

/-! ## Key discovery (chunk.go lines 93-135)

`GetSelectedUniqueKeyColumnNames` honours `Config.ForcedChunkingColumn` when
non-empty and otherwise consults the information schema through
`GetPossibleUniqueKeyColumns`, classifying the head row. -/

/-- One row of `GetPossibleUniqueKeyColumns` output (mysql.go lines 239-290):
the fields of the information-schema row that chunk.go reads. -/
structure SchemaRow where
  columnNames : List Char
  countColumnInIndex : Nat
  dataType : List Char
  characterSetName : Option (List Char)

/-- Result of key discovery; `queriedSchema` records whether the code issued
the `GetPossibleUniqueKeyColumns` schema query. -/
structure KeySelection where
  columnNames : List Char
  count : Nat
  keyType : List Char
  queriedSchema : Bool
deriving DecidableEq

/-- `GetSelectedUniqueKeyColumnNames` (chunk.go lines 93-135).  The schema
rows stand for what `GetPossibleUniqueKeyColumns` would return; the forced
branch never consults them. -/
def getSelectedUniqueKeyColumnNames (forced : List Char) (schema : List SchemaRow) :
    KeySelection :=
  if forced ≠ [] then
    let tokens := splitOnChar ',' forced
    if tokens.length > 1 then ⟨forced, tokens.length, [], false⟩
    else if containsChar ':' forced then
      let parts := splitOnChar ':' forced
      ⟨parts.headI, 1, parts.getD 1 [], false⟩
    else ⟨forced, 1, [], false⟩
  else
    match schema with
    | [] => ⟨[], 0, [], true⟩
    | row :: _ =>
      let dataType := toLowerChars row.dataType
      let keyType :=
        if (match row.characterSetName with
            | some cs => cs ≠ ([] : List Char)
            | none => false : Bool) then "text".toList
        else if hasSubstr "int".toList dataType then "integer".toList
        else if hasSubstr "time".toList dataType || hasSubstr "date".toList dataType then
          "temporal".toList
        else []
      ⟨toLowerChars row.columnNames, row.countColumnInIndex, keyType, true⟩

/-! ## The range initializer (chunk.go lines 137-243)

`GetUniqueKeyRange` seeds `@unique_key_min_value_*` / `@unique_key_max_value_*`
and reports whether the table has rows.  Values coming back from the driver
are modelled by `Value` (`mysql.go` `QueryRow` yields `int64`, text — byte
slices are normalized to strings — or SQL NULL); a failed Go type assertion
such as `row["start_with"].(int64)` on anything but an `int64` is a panic. -/

inductive Value where
  | int (i : Int)
  | str (s : List Char)
  | null
deriving DecidableEq

abbrev DBRow := List (List Char × Value)

def lookupRow (row : DBRow) (col : List Char) : Option Value :=
  match row.find? (fun p => p.1 = col) with
  | some p => some p.2
  | none => none

/-- The database session as seen by `GetUniqueKeyRange`: `exec` reports
`none` on success (the affected-row count is discarded there) and an error
message otherwise; `queryRow` yields a row or an error (`sql.ErrNoRows`
included, as an error value). -/
structure DBO where
  exec : List Char → Option (List Char)
  queryRow : List Char → Except (List Char) DBRow

/-- Outcome of running a fallible Go function: normal result, returned
error, or runtime panic. -/
inductive Outcome (α : Type) where
  | ok (a : α)
  | err (e : List Char)
  | panic
deriving DecidableEq

/-- Effect monad for the embedding: threads the trace of statements issued
to the session and stops at the first error or panic. -/
def GoM (α : Type) : Type := List (List Char) → Outcome α × List (List Char)

/-- Sequencing for `GoM`: run `x`, then `f` on its result, propagating the
first error or panic together with the trace so far. -/
def goBind {α β : Type} (x : GoM α) (f : α → GoM β) : GoM β := fun t =>
  match x t with
  | (.ok a, t') => f a t'
  | (.err e, t') => (.err e, t')
  | (.panic, t') => (.panic, t')

instance : Monad GoM where
  pure a := fun t => (.ok a, t)
  bind := goBind

def dbExec (db : DBO) (q : List Char) : GoM Unit := fun t =>
  match db.exec q with
  | none => (.ok (), t ++ [q])
  | some e => (.err e, t ++ [q])

def dbQueryRow (db : DBO) (q : List Char) : GoM DBRow := fun t =>
  match db.queryRow q with
  | .ok r => (.ok r, t ++ [q])
  | .error e => (.err e, t ++ [q])

def goPanic {α : Type} : GoM α := fun t => (.panic, t)

def goErr {α : Type} (e : List Char) : GoM α := fun t => (.err e, t)

/-- Configuration record consumed by `GetUniqueKeyRange`. -/
structure RangeCfg where
  database : List Char
  table : List Char
  uniqueKeyColumnNames : List Char
  countColumnsInUniqueKey : Nat
  uniqueKeyType : List Char
  startWith : List Char
  endWith : List Char

/-- `SELECT <n> INTO <vars>` (chunk.go lines 144, 156, 181, 192). -/
def selectIntoConst (n : Int) (vars : List Char) : List Char :=
  "SELECT ".toList ++ intChars n ++ " INTO ".toList ++ vars

/-- The default lower-bound seed query of chunk.go lines 167-171 (interior
whitespace of the Go raw string literal is normalized to single spaces). -/
def seedMinQuery (cfg : RangeCfg) : List Char :=
  "SELECT ".toList ++ cfg.uniqueKeyColumnNames ++ " INTO ".toList ++
    minValuesVariables cfg.countColumnsInUniqueKey ++ " FROM ".toList ++
    cfg.database ++ '.' :: cfg.table ++ " ORDER BY ".toList ++
    cfg.uniqueKeyColumnNames ++ " LIMIT 1".toList

/-- The default upper-bound seed query of chunk.go lines 202-206. -/
def seedMaxQuery (cfg : RangeCfg) : List Char :=
  "SELECT ".toList ++ cfg.uniqueKeyColumnNames ++ " INTO ".toList ++
    maxValuesVariables cfg.countColumnsInUniqueKey ++ " FROM ".toList ++
    cfg.database ++ '.' :: cfg.table ++ " ORDER BY ".toList ++
    cfg.uniqueKeyColumnNames ++ " DESC LIMIT 1".toList

/-- The emptiness probe of chunk.go line 213. -/
def rangeExistsQuery (cfg : RangeCfg) : List Char :=
  "SELECT COUNT(*) AS range_exists FROM (SELECT NULL FROM ".toList ++
    cfg.database ++ '.' :: cfg.table ++ " LIMIT 1) SEL1".toList

/-- `getSessionVariableValue` (chunk.go lines 277-284): issue
`SELECT @<name> AS <name>` and read the column back (a missing key in the Go
map yields a nil interface, modelled as `Value.null`). -/
def getSessionVariableValue (db : DBO) (name : List Char) : GoM Value := do
  let row ← dbQueryRow db ("SELECT @".toList ++ name ++ " AS ".toList ++ name)
  pure ((lookupRow row name).getD .null)

/-- The lower-bound phase of `GetUniqueKeyRange` (chunk.go lines 141-176).
With a `StartWith` that does not parse as an integer the code runs it as a
query and evaluates `row["start_with"].(int64)` — a non-`int64` (or missing)
column is a runtime panic. -/
def seedMinPhase (db : DBO) (cfg : RangeCfg) : GoM Unit := do
  let minVars := minValuesVariables cfg.countColumnsInUniqueKey
  if cfg.startWith ≠ [] then
    if cfg.uniqueKeyType = "integer".toList ∧ cfg.countColumnsInUniqueKey = 1 then
      match atoi cfg.startWith with
      | some startInt => dbExec db (selectIntoConst startInt minVars)
      | none => do
        let row ← dbQueryRow db cfg.startWith
        match lookupRow row "start_with".toList with
        | some (.int startInt) => dbExec db (selectIntoConst startInt minVars)
        | _ => goPanic
    else
      goErr "--start-with only applies to single column integer chunking keys".toList
  else
    dbExec db (seedMinQuery cfg)

/-- The upper-bound phase of `GetUniqueKeyRange` (chunk.go lines 178-211),
symmetric to `seedMinPhase` with the `end_with` column alias. -/
def seedMaxPhase (db : DBO) (cfg : RangeCfg) : GoM Unit := do
  let maxVars := maxValuesVariables cfg.countColumnsInUniqueKey
  if cfg.endWith ≠ [] then
    if cfg.uniqueKeyType = "integer".toList ∧ cfg.countColumnsInUniqueKey = 1 then
      match atoi cfg.endWith with
      | some endInt => dbExec db (selectIntoConst endInt maxVars)
      | none => do
        let row ← dbQueryRow db cfg.endWith
        match lookupRow row "end_with".toList with
        | some (.int endInt) => dbExec db (selectIntoConst endInt maxVars)
        | _ => goPanic
    else
      goErr "--end-with only applies to single column integer chunking keys".toList
  else
    dbExec db (seedMaxQuery cfg)

/-- `GetUniqueKeyRange` (chunk.go lines 137-243): seed bounds, probe for
emptiness (where `val != nil && val.(int64) > 0` panics on a non-integer
non-nil value), and on success read the min/max variables back
(interleaved per component, lines 224-235).  Returns `some (minValues,
maxValues)` when the range exists and `none` otherwise. -/
def getUniqueKeyRange (db : DBO) (cfg : RangeCfg) :
    GoM (Option (List Value × List Value)) := do
  seedMinPhase db cfg
  seedMaxPhase db cfg
  let row ← dbQueryRow db (rangeExistsQuery cfg)
  let rangeExists ←
    match lookupRow row "range_exists".toList with
    | none => pure false
    | some .null => pure false
    | some (.int n) => pure (decide (0 < n))
    | some (.str _) => goPanic
  if rangeExists then
    let pairs ← (List.range cfg.countColumnsInUniqueKey).mapM fun i => do
      let minVal ← getSessionVariableValue db ("unique_key_min_value_".toList ++ natChars i)
      let maxVal ← getSessionVariableValue db ("unique_key_max_value_".toList ++ natChars i)
      pure (minVal, maxVal)
    pure (some (pairs.map Prod.fst, pairs.map Prod.snd))
  else
    pure none

/-! ## Claim C1 -/

/-- A five-row table with keys 1..5 chunked with `ChunkSize = 2`: concrete
demonstration input for the coverage property. -/
def fiveRowTable : List Int := [1, 2, 3, 4, 5]

/-- C1: the claim says the chunk statements together target every row with
key in `[min, max]` exactly once.  The code violates this: both templates
bound the window by the strict `key < @unique_key_range_end_0` while the next
round starts with the strict `key > @unique_key_range_start_0` after copying
`end` into `start`, so each chunk's endpoint row is targeted by no chunk at
all.  On the table with keys 1..5 and `ChunkSize = 2` the loop executes the
first-round chunk with `(start, end) = (1, 3)` and one rest-round chunk with
`(3, 5)`, then halts; row 3 lies in `[1, 5]` but no executed chunk targets
it (rows 3 and 5 are silently skipped). -/
theorem chunkUpdate_skips_boundary_rows :
    chunkUpdate fiveRowTable 1 5 2 4 =
      some [⟨true, 1, 3⟩, ⟨false, 3, 5⟩] ∧
    ((1 : Int) ≤ 3 ∧ (3 : Int) ≤ 5) ∧
    coveredByChunks 1 [⟨true, 1, 3⟩, ⟨false, 3, 5⟩] 3 = false ∧
    coveredByChunks 1 [⟨true, 1, 3⟩, ⟨false, 3, 5⟩] 5 = false := by
  decide

/-! ## Claim C2 -/

/-- A composite-key (k = 2) session state at the end of a loop iteration:
the probe installed the end tuple `(2, 5)` while the start tuple still holds
`(1, 1)`. -/
def advanceDemoStore : VarStore :=
  [("unique_key_range_start_0".toList, 1), ("unique_key_range_start_1".toList, 1),
   ("unique_key_range_end_0".toList, 2), ("unique_key_range_end_1".toList, 5),
   ("unique_key_max_value_0".toList, 9), ("unique_key_max_value_1".toList, 9)]

/-- C2: the claim says the whole end tuple is copied into the start tuple
(all k components).  The statement the code executes at chunk.go line 460 is
the fixed `SELECT @unique_key_range_end_0 INTO @unique_key_range_start_0`,
which assigns only component 0: with `end = (2, 5)` and `start = (1, 1)` the
advanced start is `(2, 1)`, whose second component still differs from the
end tuple's. -/
theorem advanceRangeStart_copies_only_component_zero :
    getVar (advanceRangeStart advanceDemoStore) "unique_key_range_start_0".toList =
      getVar advanceDemoStore "unique_key_range_end_0".toList ∧
    getVar (advanceRangeStart advanceDemoStore) "unique_key_range_start_1".toList ≠
      getVar advanceDemoStore "unique_key_range_end_1".toList := by
  decide

/-! ## Claim C3 -/

/-- A composite-key (k = 2) session state entering an iteration after the
first: `start = (2, 1)` is lexicographically strictly below `max = (2, 5)`,
so unprocessed rows remain. -/
def overflowDemoStore : VarStore :=
  [("unique_key_range_start_0".toList, 2), ("unique_key_range_start_1".toList, 1),
   ("unique_key_max_value_0".toList, 2), ("unique_key_max_value_1".toList, 5)]

/-- C3: the claim says the overflow check compares `start ≥ max`
lexicographically over the full key tuple.  The statement the code executes
at chunk.go line 427 is the fixed
`SELECT @unique_key_range_start_0 >= @unique_key_max_value_0 AS overflow`,
which compares only component 0: with `start = (2, 1)` and `max = (2, 5)`
the code's check reports overflow (and the loop breaks) although the tuple
comparison `start ≥ max` is false. -/
theorem overflowCheck_ignores_trailing_components :
    overflowCheck overflowDemoStore = true ∧
    lexGe [2, 1] [2, 5] = false := by
  decide

/-! ## Claim C4 -/

/-- A user statement whose sentinel argument is db-qualified. -/
def dbQualifiedStatement : List Char :=
  "UPDATE t SET x=1 WHERE GO_CHUNK(db.t)".toList

/-- C4: the claim says building the templates substring-replaces every
occurrence of the sentinel, for a bare or db-qualified table argument, so no
sentinel remains after one rewrite.  For the db-qualified form the code fails:
`runChunkUpdate` parses the argument `db.t` down to the bare table name `t`
(chunk.go lines 763-777), and `ChunkUpdate` then replaces the string
`GO_CHUNK(t)` (lines 307-308), which never occurs in the statement — both
templates come out identical to the input with the sentinel `GO_CHUNK(db.t)`
still present. -/
theorem dbQualified_sentinel_survives_rewrite :
    parsedTableName dbQualifiedStatement = some "t".toList ∧
    firstQueryChars dbQualifiedStatement "t".toList "id".toList 1 = dbQualifiedStatement ∧
    restQueryChars dbQualifiedStatement "t".toList "id".toList 1 = dbQualifiedStatement ∧
    hasSubstr (sentinel "db.t".toList)
      (firstQueryChars dbQualifiedStatement "t".toList "id".toList 1) = true := by
  decide

/-! ## Claim C6 -/

/-- C6 counterexample: the claim says a negative `--chunk-size` is rejected
with a validation error before any database work.  The validation phase of
`runChunkUpdate` never inspects the chunk size: with a well-formed statement
and database, a chunk size of -42 sails through validation (returns no
error) and execution proceeds to the database connection. -/
theorem negative_chunkSize_passes_validation :
    runChunkUpdateValidate "UPDATE t SET x=1 WHERE GO_CHUNK(t)".toList
      "test".toList (-42) = none := by
  decide

/-- C6 amended: the pre-database validation of `runChunkUpdate` consists
exactly of the missing `--execute`, missing-sentinel and missing-database
checks; its outcome is independent of the `--chunk-size` value, and in
particular a negative chunk size is not rejected. -/
theorem validation_independent_of_chunkSize :
    (∀ (e d : List Char) (cs cs' : Int),
      runChunkUpdateValidate e d cs = runChunkUpdateValidate e d cs') ∧
    runChunkUpdateValidate "UPDATE t SET x=1 WHERE GO_CHUNK(t)".toList
      "test".toList (-1) = none :=
  ⟨fun _ _ _ _ => rfl, by decide⟩

/-! ## Claim C9: helper lemmas on split and contains -/

theorem containsChar_append (c : Char) (a b : List Char) :
    containsChar c (a ++ b) = (containsChar c a || containsChar c b) := by
  induction a with
  | nil => simp [containsChar]
  | cons x xs ih => simp [containsChar, ih, Bool.or_assoc]

theorem splitOnChar_ne_nil (sep : Char) (s : List Char) : splitOnChar sep s ≠ [] := by
  cases s with
  | nil => simp [splitOnChar]
  | cons c rest =>
    simp only [splitOnChar]
    rcases h : splitOnChar sep rest with _ | ⟨g, gs⟩ <;> dsimp only <;> split <;> simp

theorem splitOnChar_of_not_contains {sep : Char} {s : List Char}
    (h : containsChar sep s = false) : splitOnChar sep s = [s] := by
  induction s with
  | nil => rfl
  | cons c rest ih =>
    simp only [containsChar, Bool.or_eq_false_iff, decide_eq_false_iff_not] at h
    simp only [splitOnChar, ih h.2]
    simp [h.1]

theorem splitOnChar_append_sep {sep : Char} {a : List Char} (b : List Char)
    (h : containsChar sep a = false) :
    splitOnChar sep (a ++ sep :: b) = a :: splitOnChar sep b := by
  induction a with
  | nil =>
    simp only [List.nil_append, splitOnChar]
    rcases hb : splitOnChar sep b with _ | ⟨g, gs⟩
    · exact absurd hb (splitOnChar_ne_nil sep b)
    · simp
  | cons c rest ih =>
    simp only [containsChar, Bool.or_eq_false_iff, decide_eq_false_iff_not] at h
    simp only [List.cons_append, splitOnChar, List.append_eq]
    rw [ih h.2]
    simp [h.1]

/-- C9: the forced-chunking-column forms of `GetSelectedUniqueKeyColumnNames`
(chunk.go lines 94-109).  A `col:kind` specification yields `(col, 1, kind)`,
a bare `col` yields `(col, 1, empty)`, and a comma-separated list is returned
verbatim with arity the number of listed columns and empty classification —
in every case without consulting the schema, whatever it contains. -/
theorem forcedChunkingColumn_forms :
    (∀ (c k : List Char) (schema : List SchemaRow),
      containsChar ',' c = false → containsChar ',' k = false →
      containsChar ':' c = false → containsChar ':' k = false →
      getSelectedUniqueKeyColumnNames (c ++ ':' :: k) schema = ⟨c, 1, k, false⟩) ∧
    (∀ (f : List Char) (schema : List SchemaRow), f ≠ [] →
      containsChar ',' f = false → containsChar ':' f = false →
      getSelectedUniqueKeyColumnNames f schema = ⟨f, 1, [], false⟩) ∧
    (∀ (f : List Char) (schema : List SchemaRow),
      1 < (splitOnChar ',' f).length →
      getSelectedUniqueKeyColumnNames f schema =
        ⟨f, (splitOnChar ',' f).length, [], false⟩) := by
  refine ⟨?_, ?_, ?_⟩
  · intro c k schema hcc hck hc hk
    have hne : c ++ ':' :: k ≠ [] := by simp
    have hcomma : containsChar ',' (c ++ ':' :: k) = false := by
      simp [containsChar_append, containsChar, hcc, hck]
    have htokens : splitOnChar ',' (c ++ ':' :: k) = [c ++ ':' :: k] :=
      splitOnChar_of_not_contains hcomma
    have hcolon : containsChar ':' (c ++ ':' :: k) = true := by
      simp [containsChar_append, containsChar]
    have hparts : splitOnChar ':' (c ++ ':' :: k) = [c, k] := by
      rw [splitOnChar_append_sep k hc, splitOnChar_of_not_contains hk]
    simp [getSelectedUniqueKeyColumnNames, hne, htokens, hcolon, hparts]
  · intro f schema hne hcomma hcolon
    have htokens : splitOnChar ',' f = [f] := splitOnChar_of_not_contains hcomma
    simp [getSelectedUniqueKeyColumnNames, hne, htokens, hcolon]
  · intro f schema hlen
    have hne : f ≠ [] := by
      intro hf
      rw [hf] at hlen
      simp [splitOnChar] at hlen
    simp [getSelectedUniqueKeyColumnNames, hne, hlen]

/-- Witness for C9: the three forms at `id:integer`, `id` and `a,b`. -/
theorem forcedChunkingColumn_forms_witness :
    getSelectedUniqueKeyColumnNames "id:integer".toList [] =
      ⟨"id".toList, 1, "integer".toList, false⟩ ∧
    getSelectedUniqueKeyColumnNames "id".toList [] = ⟨"id".toList, 1, [], false⟩ ∧
    getSelectedUniqueKeyColumnNames "a,b".toList [] = ⟨"a,b".toList, 2, [], false⟩ :=
  ⟨forcedChunkingColumn_forms.1 "id".toList "integer".toList []
      (by decide) (by decide) (by decide) (by decide),
   forcedChunkingColumn_forms.2.1 "id".toList [] (by decide) (by decide) (by decide),
   forcedChunkingColumn_forms.2.2 "a,b".toList [] (by decide)⟩

/-! ## Claim C7 -/

/-- Modelled from the claim's words: for a single-column key the first-round
predicate is `key >= min AND key < end`, where `min` and `end` are the
corresponding session variables (the component-0 min / range-end variables). -/
def specFirstPredSingle (key : List Char) : List Char :=
  key ++ (" >= ".toList ++ minValuesVariables 1 ++ " AND ".toList) ++
    key ++ (" < ".toList ++ rangeEndVariables 1)

/-- Modelled from the claim's words: the rest-rounds predicate
`key > start AND key < end` over the corresponding session variables. -/
def specRestPredSingle (key : List Char) : List Char :=
  key ++ (" > ".toList ++ rangeStartVariables 1 ++ " AND ".toList) ++
    key ++ (" < ".toList ++ rangeEndVariables 1)

/-- Modelled from the claim's words: for `k > 1` the first-round form as a
parenthesised tuple comparison over all k columns and variables. -/
def specFirstPredTuple (cols : List Char) (k : Nat) : List Char :=
  "(".toList ++ cols ++ ") >= (".toList ++ minValuesVariables k ++
    ") AND (".toList ++ cols ++ ") < (".toList ++ rangeEndVariables k ++ ")".toList

/-- Modelled from the claim's words: the rest-rounds tuple form for `k > 1`. -/
def specRestPredTuple (cols : List Char) (k : Nat) : List Char :=
  "(".toList ++ cols ++ ") > (".toList ++ rangeStartVariables k ++
    ") AND (".toList ++ cols ++ ") < (".toList ++ rangeEndVariables k ++ ")".toList

/-- C7: the two templates built by `ChunkUpdate` are exactly the user
statement with the sentinel replaced by the predicates the claim describes:
for a single-column key the scalar forms `key >= min AND key < end` /
`key > start AND key < end` over the session variables, and for `k > 1` the
parenthesised tuple forms over all k columns and generated variable vectors.
The final conjuncts evaluate the single-column templates on the spec's
concrete scenario (`DELETE FROM t WHERE GO_CHUNK(t) AND flag=0`, key `id`). -/
theorem queryTemplates_match_spec :
    (∀ ex table key : List Char,
      firstQueryChars ex table key 1 =
        replaceAll ex (sentinel table) (specFirstPredSingle key) ∧
      restQueryChars ex table key 1 =
        replaceAll ex (sentinel table) (specRestPredSingle key)) ∧
    (∀ (ex table cols : List Char) (k : Nat), 2 ≤ k →
      firstQueryChars ex table cols k =
        replaceAll ex (sentinel table) (specFirstPredTuple cols k) ∧
      restQueryChars ex table cols k =
        replaceAll ex (sentinel table) (specRestPredTuple cols k)) ∧
    firstQueryChars "DELETE FROM t WHERE GO_CHUNK(t) AND flag=0".toList
        "t".toList "id".toList 1 =
      ("DELETE FROM t WHERE id >= @unique_key_min_value_0 AND " ++
        "id < @unique_key_range_end_0 AND flag=0").toList ∧
    restQueryChars "DELETE FROM t WHERE GO_CHUNK(t) AND flag=0".toList
        "t".toList "id".toList 1 =
      ("DELETE FROM t WHERE id > @unique_key_range_start_0 AND " ++
        "id < @unique_key_range_end_0 AND flag=0").toList := by
  have hmin : " >= ".toList ++ minValuesVariables 1 ++ " AND ".toList =
      " >= @unique_key_min_value_0 AND ".toList := by decide
  have hstart : " > ".toList ++ rangeStartVariables 1 ++ " AND ".toList =
      " > @unique_key_range_start_0 AND ".toList := by decide
  have hend : " < ".toList ++ rangeEndVariables 1 = " < @unique_key_range_end_0".toList := by
    decide
  refine ⟨?_, ?_, by decide, by decide⟩
  · intro ex table key
    constructor
    · simp only [firstQueryChars, specFirstPredSingle, hmin, hend, if_true,
        eq_self_iff_true, List.append_assoc]
    · simp only [restQueryChars, specRestPredSingle, hstart, hend, if_true,
        eq_self_iff_true, List.append_assoc]
  · intro ex table cols k hk
    have hk1 : k ≠ 1 := by omega
    constructor
    · simp only [firstQueryChars, if_neg hk1, specFirstPredTuple]
      rfl
    · simp only [restQueryChars, if_neg hk1, specRestPredTuple]
      rfl

/-- Witness for C7: both universally quantified parts instantiated, the
tuple part at arity 2. -/
theorem queryTemplates_match_spec_witness :
    (firstQueryChars "UPDATE t SET x=1 WHERE GO_CHUNK(t)".toList "t".toList
        "id".toList 1 =
      replaceAll "UPDATE t SET x=1 WHERE GO_CHUNK(t)".toList (sentinel "t".toList)
        (specFirstPredSingle "id".toList)) ∧
    (firstQueryChars "UPDATE t SET x=1 WHERE GO_CHUNK(t)".toList "t".toList
        "a,b".toList 2 =
      replaceAll "UPDATE t SET x=1 WHERE GO_CHUNK(t)".toList (sentinel "t".toList)
        (specFirstPredTuple "a,b".toList 2)) :=
  ⟨(queryTemplates_match_spec.1 "UPDATE t SET x=1 WHERE GO_CHUNK(t)".toList
      "t".toList "id".toList).1,
   (queryTemplates_match_spec.2.1 "UPDATE t SET x=1 WHERE GO_CHUNK(t)".toList
      "t".toList "a,b".toList 2 (by decide)).1⟩

/-! ## Claims C8 and C10 -/

theorem goBind_err {α β : Type} (x : GoM α) (f : α → GoM β)
    (t t' : List (List Char)) (e : List Char) (h : x t = (.err e, t')) :
    (x >>= f) t = (.err e, t') := by
  show goBind x f t = (.err e, t')
  simp only [goBind, h]

theorem goBind_panic {α β : Type} (x : GoM α) (f : α → GoM β)
    (t t' : List (List Char)) (h : x t = (.panic, t')) :
    (x >>= f) t = (.panic, t') := by
  show goBind x f t = (.panic, t')
  simp only [goBind, h]

theorem goBind_ok {α β : Type} (x : GoM α) (f : α → GoM β)
    (t t' : List (List Char)) (a : α) (h : x t = (.ok a, t')) :
    (x >>= f) t = f a t' := by
  show goBind x f t = f a t'
  simp only [goBind, h]

/-- When `StartWith` is set and the key is not a single integer column,
the lower-bound phase returns the specific error without touching the
session (chunk.go lines 141-165). -/
theorem seedMinPhase_wrong_key_err (db : DBO) (cfg : RangeCfg)
    (t : List (List Char)) (h1 : cfg.startWith ≠ [])
    (h2 : ¬(cfg.uniqueKeyType = "integer".toList ∧ cfg.countColumnsInUniqueKey = 1)) :
    seedMinPhase db cfg t =
      (.err "--start-with only applies to single column integer chunking keys".toList,
        t) := by
  simp only [seedMinPhase]
  rw [if_pos h1, if_neg h2]
  rfl

/-- C8: if `StartWith` is non-empty and the chunking key is not a single
integer column, `GetUniqueKeyRange` returns exactly the error
`--start-with only applies to single column integer chunking keys`, with an
empty statement trace — no database statement is issued before the error. -/
theorem startWith_wrong_key_no_db_work (db : DBO) (cfg : RangeCfg)
    (h1 : cfg.startWith ≠ [])
    (h2 : ¬(cfg.uniqueKeyType = "integer".toList ∧ cfg.countColumnsInUniqueKey = 1)) :
    getUniqueKeyRange db cfg [] =
      (.err "--start-with only applies to single column integer chunking keys".toList,
        []) := by
  simp only [getUniqueKeyRange]
  exact goBind_err _ _ [] [] _ (seedMinPhase_wrong_key_err db cfg [] h1 h2)

/-- A session that accepts every statement and answers every single-row query
with an empty row. -/
def nullDB : DBO := ⟨fun _ => none, fun _ => .ok []⟩

/-- A configuration with a `StartWith` override over a single text key. -/
def textKeyCfg : RangeCfg :=
  ⟨"test".toList, "t".toList, "name".toList, 1, "text".toList, "5".toList, []⟩

/-- Witness for C8 at a concrete configuration and session. -/
theorem startWith_wrong_key_no_db_work_witness :
    getUniqueKeyRange nullDB textKeyCfg [] =
      (.err "--start-with only applies to single column integer chunking keys".toList,
        []) :=
  startWith_wrong_key_no_db_work nullDB textKeyCfg (by decide) (by decide)

/-- Is this looked-up column value an `int64`?  (The Go type assertions
`row["start_with"].(int64)` / `row["end_with"].(int64)` succeed exactly when
this holds, and panic otherwise — including on a missing column, whose `nil`
interface value also fails the assertion.) -/
def isIntValue : Option Value → Bool
  | some (.int _) => true
  | _ => false

/-- The lower-bound phase panics when the non-integer `StartWith`
sub-statement yields a row without an `int64` column `start_with`
(chunk.go lines 150-162). -/
theorem seedMinPhase_bad_subquery_panics (db : DBO) (cfg : RangeCfg)
    (t : List (List Char)) (row : DBRow) (h1 : cfg.startWith ≠ [])
    (h2 : cfg.uniqueKeyType = "integer".toList) (h3 : cfg.countColumnsInUniqueKey = 1)
    (h4 : atoi cfg.startWith = none)
    (h5 : db.queryRow cfg.startWith = .ok row)
    (h6 : isIntValue (lookupRow row "start_with".toList) = false) :
    seedMinPhase db cfg t = (.panic, t ++ [cfg.startWith]) := by
  simp only [seedMinPhase]
  rw [if_pos h1, if_pos ⟨h2, h3⟩, h4]
  dsimp only
  rw [goBind_ok _ _ t (t ++ [cfg.startWith]) row (by simp only [dbQueryRow, h5])]
  rcases hl : lookupRow row "start_with".toList with _ | v
  · rfl
  · cases v with
    | int i => rw [hl] at h6; exact absurd h6 (by simp [isIntValue])
    | str s => rfl
    | null => rfl

/-- Without a `StartWith` override the lower-bound phase issues the default
seed query and succeeds when the session accepts it (chunk.go lines 166-176). -/
theorem seedMinPhase_default_ok (db : DBO) (cfg : RangeCfg) (t : List (List Char))
    (h : cfg.startWith = []) (hex : db.exec (seedMinQuery cfg) = none) :
    seedMinPhase db cfg t = (.ok (), t ++ [seedMinQuery cfg]) := by
  simp only [seedMinPhase]
  rw [if_neg (by simp [h])]
  simp only [dbExec, hex]

/-- The upper-bound phase panics when the non-integer `EndWith` sub-statement
yields a row without an `int64` column `end_with` (chunk.go lines 186-197). -/
theorem seedMaxPhase_bad_subquery_panics (db : DBO) (cfg : RangeCfg)
    (t : List (List Char)) (row : DBRow) (h1 : cfg.endWith ≠ [])
    (h2 : cfg.uniqueKeyType = "integer".toList) (h3 : cfg.countColumnsInUniqueKey = 1)
    (h4 : atoi cfg.endWith = none)
    (h5 : db.queryRow cfg.endWith = .ok row)
    (h6 : isIntValue (lookupRow row "end_with".toList) = false) :
    seedMaxPhase db cfg t = (.panic, t ++ [cfg.endWith]) := by
  simp only [seedMaxPhase]
  rw [if_pos h1, if_pos ⟨h2, h3⟩, h4]
  dsimp only
  rw [goBind_ok _ _ t (t ++ [cfg.endWith]) row (by simp only [dbQueryRow, h5])]
  rcases hl : lookupRow row "end_with".toList with _ | v
  · rfl
  · cases v with
    | int i => rw [hl] at h6; exact absurd h6 (by simp [isIntValue])
    | str s => rfl
    | null => rfl

/-- C10: when `StartWith` (respectively `EndWith`) is non-empty, does not
parse as an integer literal, and the key is a single integer column,
`GetUniqueKeyRange` executes the override as a query and unconditionally
type-asserts the `start_with` (respectively `end_with`) result column to
`int64`; whenever the returned row lacks that column or holds a non-`int64`
value the function panics — the run ends in `Outcome.panic`, not in a
returned error. -/
theorem startWith_endWith_subquery_panics :
    (∀ (db : DBO) (cfg : RangeCfg) (row : DBRow),
      cfg.startWith ≠ [] → cfg.uniqueKeyType = "integer".toList →
      cfg.countColumnsInUniqueKey = 1 → atoi cfg.startWith = none →
      db.queryRow cfg.startWith = .ok row →
      isIntValue (lookupRow row "start_with".toList) = false →
      getUniqueKeyRange db cfg [] = (.panic, [cfg.startWith])) ∧
    (∀ (db : DBO) (cfg : RangeCfg) (row : DBRow),
      cfg.startWith = [] → db.exec (seedMinQuery cfg) = none →
      cfg.endWith ≠ [] → cfg.uniqueKeyType = "integer".toList →
      cfg.countColumnsInUniqueKey = 1 → atoi cfg.endWith = none →
      db.queryRow cfg.endWith = .ok row →
      isIntValue (lookupRow row "end_with".toList) = false →
      getUniqueKeyRange db cfg [] = (.panic, [seedMinQuery cfg, cfg.endWith])) := by
  constructor
  · intro db cfg row h1 h2 h3 h4 h5 h6
    simp only [getUniqueKeyRange]
    exact goBind_panic _ _ [] [cfg.startWith]
      (seedMinPhase_bad_subquery_panics db cfg [] row h1 h2 h3 h4 h5 h6)
  · intro db cfg row h0 hex h1 h2 h3 h4 h5 h6
    simp only [getUniqueKeyRange]
    rw [goBind_ok _ _ [] [seedMinQuery cfg] ()
      (seedMinPhase_default_ok db cfg [] h0 hex)]
    exact goBind_panic _ _ [seedMinQuery cfg] [seedMinQuery cfg, cfg.endWith]
      (seedMaxPhase_bad_subquery_panics db cfg [seedMinQuery cfg] row h1 h2 h3 h4 h5 h6)

/-- A session whose single-row queries always yield a row holding only a
text-valued `start_with` column (as the MySQL driver does after normalizing
a byte-slice result), and whose statements all succeed. -/
def badSubqueryDB : DBO :=
  ⟨fun _ => none, fun _ => .ok [("start_with".toList, .str "42".toList)]⟩

/-- Single integer key with a sub-statement `StartWith` override. -/
def intKeyStartCfg : RangeCfg :=
  ⟨"test".toList, "t".toList, "id".toList, 1, "integer".toList,
    "SELECT uuid()".toList, []⟩

/-- Single integer key with a sub-statement `EndWith` override. -/
def intKeyEndCfg : RangeCfg :=
  ⟨"test".toList, "t".toList, "id".toList, 1, "integer".toList, [],
    "SELECT uuid()".toList⟩

/-- Witness for C10: both the `start_with` case (column present but textual)
and the `end_with` case (column missing) at concrete inputs. -/
theorem startWith_endWith_subquery_panics_witness :
    getUniqueKeyRange badSubqueryDB intKeyStartCfg [] =
      (.panic, ["SELECT uuid()".toList]) ∧
    getUniqueKeyRange badSubqueryDB intKeyEndCfg [] =
      (.panic, [seedMinQuery intKeyEndCfg, "SELECT uuid()".toList]) :=
  ⟨startWith_endWith_subquery_panics.1 badSubqueryDB intKeyStartCfg
      [("start_with".toList, .str "42".toList)]
      (by decide) rfl rfl (by decide) rfl (by decide),
   startWith_endWith_subquery_panics.2 badSubqueryDB intKeyEndCfg
      [("start_with".toList, .str "42".toList)]
      rfl rfl (by decide) rfl rfl (by decide) rfl (by decide)⟩

/-! ## Claim C5: termination of the chunk loop within the claimed bound

The development follows the loop's own argument: the number of candidate
rows strictly above `start` (and at most `max`) drops by `chunkSize`
on the first round and by `chunkSize + 1` on every later round, and once it
reaches zero the overflow check fires. -/

/-- Fuel sufficient for the loop from a non-first-round state with `r`
probe candidates remaining. -/
def restFuel (cs r : Nat) : Nat := if r = 0 then 1 else (r - 1) / (cs + 1) + 2

theorem getLast?_mem_self {β : Type} {l : List β} {a : β} (h : l.getLast? = some a) :
    a ∈ l := by
  have hm : a ∈ l.getLast? := by simp [Option.mem_def, h]
  obtain ⟨hne, rfl⟩ := List.mem_getLast?_eq_getLast hm
  exact List.getLast_mem hne

theorem sorted_le_getLast : ∀ {l : List α}, l.Sorted (· < ·) →
    ∀ {m : α}, l.getLast? = some m → ∀ x ∈ l, x ≤ m := by
  intro l
  induction l with
  | nil => intro _ m hm; simp at hm
  | cons a t ih =>
    intro hs m hm x hx
    rw [List.sorted_cons] at hs
    cases t with
    | nil =>
      simp only [List.getLast?_singleton, Option.some.injEq] at hm
      simp only [List.mem_singleton] at hx
      exact le_of_eq (hx.trans hm)
    | cons b t2 =>
      rw [List.getLast?_cons_cons] at hm
      rcases List.mem_cons.mp hx with rfl | hx2
      · exact le_of_lt (hs.1 m (getLast?_mem_self hm))
      · exact ih hs.2 hm x hx2

theorem sorted_head_lt {a : α} {t : List α} (hs : (a :: t).Sorted (· < ·)) :
    ∀ x ∈ t, a < x := (List.sorted_cons.mp hs).1

theorem take_ne_nil_of_ne_nil {β : Type} {l : List β} (h : l ≠ []) {n : Nat}
    (hn : 1 ≤ n) : l.take n ≠ [] := by
  cases l with
  | nil => exact absurd rfl h
  | cons a t =>
    cases n with
    | zero => omega
    | succ m => simp

/-- On a strictly sorted list, keeping the elements strictly above the last
element of the length-`m` prefix is exactly dropping that prefix. -/
theorem sorted_filter_gt_take_last : ∀ (C : List α), C.Sorted (· < ·) →
    ∀ (m : Nat) (e : α), 1 ≤ m → (C.take m).getLast? = some e →
      C.filter (fun k => decide (e < k)) = C.drop m := by
  intro C
  induction C with
  | nil =>
    intro _ m e _ hm
    simp at hm
  | cons c rest ih =>
    intro hs m e hm1 hm
    obtain ⟨mm, rfl⟩ : ∃ mm, m = mm + 1 := ⟨m - 1, by omega⟩
    rw [List.take_succ_cons] at hm
    rcases Nat.eq_zero_or_pos mm with rfl | hmm
    · simp only [List.take_zero, List.getLast?_singleton, Option.some.injEq] at hm
      subst hm
      simp only [List.drop_succ_cons, List.drop_zero, List.filter_cons,
        decide_eq_true_eq, lt_irrefl, if_false]
      exact List.filter_eq_self.mpr fun x hx => by
        simpa using sorted_head_lt hs x hx
    · cases rest with
      | nil =>
        simp only [List.take_nil, List.getLast?_singleton, Option.some.injEq] at hm
        subst hm
        simp [List.filter_cons]
      | cons b t2 =>
        obtain ⟨mm2, rfl⟩ : ∃ mm2, mm = mm2 + 1 := ⟨mm - 1, by omega⟩
        rw [List.take_succ_cons, List.getLast?_cons_cons] at hm
        have hmem : e ∈ b :: t2 := by
          rcases List.mem_cons.mp (getLast?_mem_self hm) with rfl | h2
          · exact List.mem_cons_self _ _
          · exact List.mem_cons_of_mem _ (List.take_subset _ _ h2)
        have hce : c < e := sorted_head_lt hs e hmem
        rw [List.drop_succ_cons]
        rw [List.filter_cons]
        have : (decide (e < c)) = false := by
          simp only [decide_eq_false_iff_not]
          exact not_lt.mpr hce.le
        rw [this]
        simp only [Bool.false_eq_true, if_false]
        exact ih (List.sorted_cons.mp hs).2 (mm2 + 1) e (by omega) hm

theorem candidates_sorted {keys : List α} (hs : keys.Sorted (· < ·))
    (start maxv : α) : (candidates keys start maxv).Sorted (· < ·) :=
  hs.filter _

theorem mem_candidates {keys : List α} {start maxv k : α} :
    k ∈ candidates keys start maxv ↔ k ∈ keys ∧ start < k ∧ k ≤ maxv := by
  simp [candidates, List.mem_filter, and_assoc]

/-- With `max` the table's greatest key, the probe's candidate set is empty
exactly when `start` has reached (or passed) `max`. -/
theorem candidates_eq_nil_iff {keys : List α} {maxv : α}
    (hlast : keys.getLast? = some maxv) (start : α) :
    candidates keys start maxv = [] ↔ maxv ≤ start := by
  constructor
  · intro h
    by_contra hlt
    push_neg at hlt
    have : maxv ∈ candidates keys start maxv :=
      mem_candidates.mpr ⟨getLast?_mem_self hlast, hlt, le_refl _⟩
    simp [h] at this
  · intro h
    simp only [candidates]
    rw [List.filter_eq_nil_iff]
    intro k _
    simp only [Bool.and_eq_true, decide_eq_true_eq, not_and]
    intro hk
    exact fun hkm => absurd (lt_of_lt_of_le hk (hkm.trans h)) (lt_irrefl _)

/-- Advancing `start` to a key `e` strictly above it restricts the candidate
set to the candidates strictly above `e`. -/
theorem candidates_shift (keys : List α) {start e : α} (maxv : α)
    (hse : start < e) :
    candidates keys e maxv =
      (candidates keys start maxv).filter fun k => decide (e < k) := by
  simp only [candidates, List.filter_filter]
  refine List.filter_congr ?_
  intro x _
  by_cases he : e < x
  · have hsx : start < x := lt_trans hse he
    simp [he, hsx]
  · simp [he]

/-- From the initial state the candidate set is the tail of the table. -/
theorem candidates_head {minv maxv : α} {tail : List α}
    (hs : (minv :: tail).Sorted (· < ·))
    (hlast : (minv :: tail).getLast? = some maxv) :
    candidates (minv :: tail) minv maxv = tail := by
  simp only [candidates, List.filter_cons]
  have h0 : (decide (minv < minv) && decide (minv ≤ maxv)) = false := by simp
  rw [h0]
  simp only [Bool.false_eq_true, if_false]
  exact List.filter_eq_self.mpr fun x hx => by
    have h1 := sorted_head_lt hs x hx
    have h2 := sorted_le_getLast hs hlast x (List.mem_cons_of_mem _ hx)
    simp [h1, h2]

theorem chunkRun_mono (keys : List α) (maxv : α) (cs : Nat) :
    ∀ (f : Nat) (s : LoopSt α) (g : Nat) (L : List (ChunkExec α)),
      chunkRun keys maxv cs f s = some L → f ≤ g →
      chunkRun keys maxv cs g s = some L := by
  intro f
  induction f with
  | zero => intro s g L h; simp [chunkRun] at h
  | succ f ih =>
    intro s g L h hfg
    obtain ⟨g', rfl⟩ : ∃ g', g = g' + 1 := ⟨g - 1, by omega⟩
    rw [chunkRun] at h ⊢
    cases hstep : chunkStep keys maxv cs s with
    | halt chunks => rw [hstep] at h; exact h
    | cont s' =>
      rw [hstep] at h
      exact ih s' g' L h (by omega)

theorem restFuel_step (cs r : Nat) (hr : 1 ≤ r) :
    restFuel cs (r - (cs + 1)) + 1 ≤ restFuel cs r := by
  rw [restFuel, restFuel, if_neg (by omega : ¬r = 0)]
  rcases Nat.eq_zero_or_pos (r - (cs + 1)) with h0 | h1
  · rw [h0, if_pos rfl]
    exact Nat.le_add_left 2 _
  · rw [if_neg (by omega : ¬r - (cs + 1) = 0)]
    have hge : cs + 1 ≤ r - 1 := by omega
    have hdiv : (r - 1) / (cs + 1) = (r - 1 - (cs + 1)) / (cs + 1) + 1 :=
      Nat.div_eq_sub_div (Nat.succ_pos cs) hge
    have hsub : r - (cs + 1) - 1 = r - 1 - (cs + 1) := by omega
    rw [hsub, hdiv]

/-- From any state past the first round with `r` probe candidates left, the
loop reaches its `break` within `restFuel cs r` further iterations. -/
theorem chunkRun_rest (keys : List α) (maxv : α) (cs : Nat)
    (hs : keys.Sorted (· < ·)) (hlast : keys.getLast? = some maxv) :
    ∀ (r : Nat) (start : α) (chunks : List (ChunkExec α)),
      (candidates keys start maxv).length = r →
      ∃ L, chunkRun keys maxv cs (restFuel cs r) ⟨start, false, chunks⟩ = some L := by
  intro r
  induction r using Nat.strong_induction_on with
  | _ r ih =>
    intro start chunks hr
    rcases Nat.eq_zero_or_pos r with rfl | hr1
    · have hnil : candidates keys start maxv = [] := List.length_eq_zero.mp hr
      have hmax : maxv ≤ start := (candidates_eq_nil_iff hlast start).mp hnil
      refine ⟨chunks, ?_⟩
      simp only [restFuel, if_pos rfl]
      show chunkRun keys maxv cs (0 + 1) ⟨start, false, chunks⟩ = some chunks
      rw [chunkRun, chunkStep]
      simp [hmax]
    · have hCne : candidates keys start maxv ≠ [] := by
        intro h
        rw [h] at hr
        simp at hr
        omega
      have hstart : start < maxv := by
        by_contra hge
        push_neg at hge
        exact hCne ((candidates_eq_nil_iff hlast start).mpr hge)
      have htake : (candidates keys start maxv).take (cs + 1) ≠ [] :=
        take_ne_nil_of_ne_nil hCne (by omega)
      obtain ⟨e, he⟩ :
          ∃ e, ((candidates keys start maxv).take (cs + 1)).getLast? = some e := by
        cases h : ((candidates keys start maxv).take (cs + 1)).getLast? with
        | none => exact absurd (List.getLast?_eq_none_iff.mp h) htake
        | some e => exact ⟨e, rfl⟩
      have heC : e ∈ candidates keys start maxv :=
        List.take_subset _ _ (getLast?_mem_self he)
      have heprop := mem_candidates.mp heC
      have hnew : candidates keys e maxv = (candidates keys start maxv).drop (cs + 1) := by
        rw [candidates_shift keys maxv heprop.2.1]
        exact sorted_filter_gt_take_last _ (candidates_sorted hs start maxv)
          (cs + 1) e (by omega) he
      have hlen : (candidates keys e maxv).length = r - (cs + 1) := by
        rw [hnew, List.length_drop, hr]
      have hstep : chunkStep keys maxv cs ⟨start, false, chunks⟩ =
          .cont ⟨e, false, chunks ++ [⟨false, start, e⟩]⟩ := by
        rw [chunkStep]
        have hcond : ¬(¬(false : Bool) = true ∧ maxv ≤ start) := by
          intro h
          exact absurd h.2 (not_le.mpr hstart)
        rw [if_neg hcond]
        simp only [probeEnd, Bool.false_eq_true, if_false, he, Option.getD_some]
      obtain ⟨L, hL⟩ := ih (r - (cs + 1)) (by omega) e (chunks ++ [⟨false, start, e⟩]) hlen
      refine ⟨L, chunkRun_mono keys maxv cs (restFuel cs (r - (cs + 1)) + 1)
        ⟨start, false, chunks⟩ (restFuel cs r) L ?_ (restFuel_step cs r hr1)⟩
      rw [chunkRun, hstep]
      exact hL

theorem restFuel_first_round (cs tl : Nat) (hcs : 1 ≤ cs) :
    restFuel cs (tl - cs) ≤ tl / cs + 1 := by
  rw [restFuel]
  rcases Nat.eq_zero_or_pos (tl - cs) with h0 | h1
  · rw [h0, if_pos rfl]
    exact Nat.le_add_left 1 _
  · rw [if_neg (by omega : ¬tl - cs = 0)]
    have h2 : (tl - cs - 1) / (cs + 1) + 1 = tl / (cs + 1) := by
      have heq : tl - cs - 1 + (cs + 1) = tl := by omega
      rw [← Nat.add_div_right (tl - cs - 1) (Nat.succ_pos cs), heq]
    have h3 : tl / (cs + 1) ≤ tl / cs := Nat.div_le_div_left (by omega) (by omega)
    omega

/-- Single-column case of the termination bound: for every finite table
(distinct keys listed in ascending order, over any linearly ordered key
domain) with global minimum `minv` and maximum `maxv` and every
`chunkSize ≥ 1`, the loop reaches its `break` within `⌈n / chunkSize⌉ + 1`
iterations, `n` the number of rows whose key lies in `[minv, maxv]`. -/
theorem chunkUpdate_single_key_bound (keys : List α) (minv maxv : α)
    (cs : Nat) (hs : keys.Sorted (· < ·)) (hne : keys ≠ [])
    (hhead : keys.head? = some minv) (hlast : keys.getLast? = some maxv)
    (hcs : 1 ≤ cs) :
    ∃ L, chunkUpdate keys minv maxv cs
      (ceilDiv (keys.filter fun k => decide (minv ≤ k) && decide (k ≤ maxv)).length
        cs + 1) = some L := by
  obtain ⟨tail, rfl⟩ : ∃ tail, keys = minv :: tail := by
    cases keys with
    | nil => simp at hhead
    | cons a t =>
      simp only [List.head?_cons, Option.some.injEq] at hhead
      exact ⟨t, by rw [hhead]⟩
  have hfilter :
      ((minv :: tail).filter fun k => decide (minv ≤ k) && decide (k ≤ maxv)) =
        minv :: tail := by
    refine List.filter_eq_self.mpr fun x hx => ?_
    have hxm : x ≤ maxv := sorted_le_getLast hs hlast x hx
    rcases List.mem_cons.mp hx with rfl | hx2
    · simp [hxm]
    · have := sorted_head_lt hs x hx2
      simp [hxm, le_of_lt this]
  rw [hfilter]
  have hceil : ceilDiv (minv :: tail).length cs + 1 = tail.length / cs + 1 + 1 := by
    simp only [ceilDiv, List.length_cons]
    have heq : tail.length + 1 + cs - 1 = tail.length + cs := by omega
    rw [heq, Nat.add_div_right _ (by omega : 0 < cs)]
  rw [hceil]
  have hC0 : candidates (minv :: tail) minv maxv = tail := candidates_head hs hlast
  cases htail : tail with
  | nil =>
    subst htail
    have hstep : chunkStep [minv] maxv cs ⟨minv, true, []⟩ =
        .cont ⟨maxv, false, [⟨true, minv, maxv⟩]⟩ := by
      rw [chunkStep]
      have hprobe : probeEnd [minv] minv maxv cs = none := by
        simp only [probeEnd, hC0]
        simp
      rw [if_neg (by simp)]
      simp [hprobe]
    have hr0 : (candidates [minv] maxv maxv).length = 0 := by
      rw [(candidates_eq_nil_iff hlast maxv).mpr (le_refl maxv)]
      rfl
    obtain ⟨L, hL⟩ := chunkRun_rest [minv] maxv cs hs hlast 0 maxv
      [⟨true, minv, maxv⟩] hr0
    refine ⟨L, ?_⟩
    rw [chunkUpdate, chunkRun, hstep]
    have hfuel : restFuel cs 0 ≤ List.length ([] : List α) / cs + 1 := by
      simp [restFuel]
    exact chunkRun_mono [minv] maxv cs (restFuel cs 0) _ _ L hL hfuel
  | cons b t2 =>
    rw [← htail]
    have htne : tail ≠ [] := by rw [htail]; simp
    have htake : tail.take cs ≠ [] := take_ne_nil_of_ne_nil htne hcs
    obtain ⟨e, he⟩ : ∃ e, (tail.take cs).getLast? = some e := by
      cases h : (tail.take cs).getLast? with
      | none => exact absurd (List.getLast?_eq_none_iff.mp h) htake
      | some e => exact ⟨e, rfl⟩
    have heC : e ∈ candidates (minv :: tail) minv maxv := by
      rw [hC0]
      exact List.take_subset _ _ (getLast?_mem_self he)
    have heprop := mem_candidates.mp heC
    have hstep : chunkStep (minv :: tail) maxv cs ⟨minv, true, []⟩ =
        .cont ⟨e, false, [⟨true, minv, e⟩]⟩ := by
      rw [chunkStep]
      have hprobe : probeEnd (minv :: tail) minv maxv cs = some e := by
        simp only [probeEnd, hC0, he]
      rw [if_neg (by simp)]
      simp [hprobe]
    have hsortedtail : tail.Sorted (· < ·) := (List.sorted_cons.mp hs).2
    have hnew : candidates (minv :: tail) e maxv = tail.drop cs := by
      rw [candidates_shift (minv :: tail) maxv heprop.2.1, hC0]
      exact sorted_filter_gt_take_last tail hsortedtail cs e hcs he
    have hlen : (candidates (minv :: tail) e maxv).length = tail.length - cs := by
      rw [hnew, List.length_drop]
    obtain ⟨L, hL⟩ := chunkRun_rest (minv :: tail) maxv cs hs hlast
      (tail.length - cs) e [⟨true, minv, e⟩] hlen
    refine ⟨L, ?_⟩
    rw [chunkUpdate, chunkRun, hstep]
    exact chunkRun_mono (minv :: tail) maxv cs (restFuel cs (tail.length - cs)) _ _ L hL
      (restFuel_first_round cs tail.length hcs)

/-! ## The chunk-driver loop for composite keys (the k>1 branches)

A row is the k-tuple of its key columns, with components drawn from the
linearly ordered value domain `α` (per-component comparisons only ever
compare values of the same column, so one order suffices).  The k>1 branches
of `ChunkUpdate` and `GetUniqueKeyRange` differ from the scalar ones in four
places, each modelled below:
- the probe predicate compares whole tuples,
  `(cols) > (startVars) AND (cols) <= (maxVars)` (chunk.go line 349), under
  the true lexicographic tuple order of SQL row comparisons;
- the inner probe sort `ORDER BY c1,…,ck` (line 351) is fully ascending, but
  the outer probe sort and the max-value seed append `DESC` after the
  comma-joined column list (`ORDER BY %s DESC LIMIT 1`, lines 351 and
  202-206): SQL attaches `DESC` only to the last column, so these order
  ascending on the first k-1 columns and descending on the last;
- on probe success all k end components are installed (lines 382-393), and on
  `sql.ErrNoRows` the whole max vector is copied (lines 358-361);
- the overflow check (line 427) and the window advance (line 460) are the
  same fixed component-0 statements as in the scalar case. -/

/-- Strict lexicographic tuple comparison, the SQL row comparison
`(c1,…,ck) < (v1,…,vk)` emitted by the k>1 branches. -/
def lexLtB : List α → List α → Bool
  | [], [] => false
  | [], _ :: _ => true
  | _ :: _, [] => false
  | a :: as, b :: bs => if a < b then true else if b < a then false else lexLtB as bs

/-- Non-strict lexicographic tuple comparison. -/
def lexLeB (x y : List α) : Bool := !(lexLtB y x)

/-- The row order produced by `ORDER BY c1,…,ck DESC`: ascending on every
column but the last, descending on the last; `quirkLeB x y` says `x` sorts no
later than `y`. -/
def quirkLeB : List α → List α → Bool
  | [a], [b] => decide (b ≤ a)
  | a :: a2 :: as, b :: b2 :: bs =>
    if a < b then true else if b < a then false else quirkLeB (a2 :: as) (b2 :: bs)
  | _, _ => true

/-- `ORDER BY c1,…,ck DESC LIMIT 1`: the earliest row of the list in the
quirk order. -/
def selectQuirkMin : List (List α) → Option (List α)
  | [] => none
  | r :: rest => some (rest.foldl (fun best x => if quirkLeB x best then x else best) r)

/-- chunk.go line 460 at arity k: the fixed statement assigns only the
component-0 range-start variable, leaving the rest of the start tuple. -/
def advanceStartK (start e : List α) : List α :=
  match start, e with
  | _ :: srest, e0 :: _ => e0 :: srest
  | s, _ => s

/-- chunk.go line 427 at arity k: the fixed statement compares only the
component-0 range-start and max-value variables. -/
def headOverflowB (start maxv : List α) : Bool :=
  match start, maxv with
  | s0 :: _, m0 :: _ => decide (m0 ≤ s0)
  | _, _ => false

/-- One iteration of the `ChunkUpdate` loop in the k>1 branches
(chunk.go lines 339-466): tuple probe bounded by the max tuple, quirk-order
outer pick, full-tuple end install (max vector on `sql.ErrNoRows`),
component-0 overflow check, component-0 advance. -/
def chunkStepK (rows : List (List α)) (maxv : List α) (chunkSize : Nat)
    (s : LoopSt (List α)) : StepRes (List α) :=
  let limit := if s.firstRound then chunkSize else chunkSize + 1
  let cands := rows.filter fun r => lexLtB s.start r && lexLeB r maxv
  let e := (selectQuirkMin (cands.take limit)).getD maxv
  if ¬s.firstRound ∧ headOverflowB s.start maxv then .halt s.chunks
  else .cont ⟨advanceStartK s.start e, false, s.chunks ++ [⟨s.firstRound, s.start, e⟩]⟩

/-- Run the k>1 loop for at most `fuel` iterations. -/
def chunkRunK (rows : List (List α)) (maxv : List α) (chunkSize : Nat) :
    Nat → LoopSt (List α) → Option (List (ChunkExec (List α)))
  | 0, _ => none
  | fuel + 1, s =>
    match chunkStepK rows maxv chunkSize s with
    | .halt chunks => some chunks
    | .cont s2 => chunkRunK rows maxv chunkSize fuel s2

/-- `ChunkUpdate` at arity k>1 from its initial state: the whole start tuple
is seeded from the min tuple (chunk.go lines 326-332). -/
def chunkUpdateK (rows : List (List α)) (minv maxv : List α)
    (chunkSize fuel : Nat) : Option (List (ChunkExec (List α))) :=
  chunkRunK rows maxv chunkSize fuel ⟨minv, true, []⟩

theorem lexLtB_irrefl : ∀ r : List α, lexLtB r r = false := by
  intro r
  induction r with
  | nil => rfl
  | cons a as ih => rw [lexLtB]; simp [lt_irrefl, ih]

theorem lexLtB_asymm : ∀ {x y : List α}, lexLtB x y = true → lexLtB y x = false := by
  intro x
  induction x with
  | nil =>
    intro y h
    cases y with
    | nil => simp [lexLtB] at h
    | cons b bs => rfl
  | cons a as ih =>
    intro y h
    cases y with
    | nil => simp [lexLtB] at h
    | cons b bs =>
      rw [lexLtB] at h ⊢
      by_cases hab : a < b
      · rw [if_neg (not_lt.mpr hab.le), if_pos hab]
      · rw [if_neg hab] at h
        by_cases hba : b < a
        · rw [if_pos hba] at h
          exact absurd h (by simp)
        · rw [if_neg hba] at h
          rw [if_neg hba, if_neg hab]
          exact ih h

theorem quirkLeB_head_le {a0 b0 a1 b1 : α} {as bs : List α}
    (h : quirkLeB (a0 :: a1 :: as) (b0 :: b1 :: bs) = true) : a0 ≤ b0 := by
  rw [quirkLeB] at h
  by_cases h1 : a0 < b0
  · exact h1.le
  · by_cases h2 : b0 < a0
    · rw [if_neg h1, if_pos h2] at h
      exact absurd h (by simp)
    · exact le_of_not_lt h2

theorem foldl_quirk_mem : ∀ (rest : List (List α)) (best : List α),
    rest.foldl (fun best x => if quirkLeB x best then x else best) best ∈
      best :: rest := by
  intro rest
  induction rest with
  | nil => intro best; exact List.mem_singleton.mpr rfl
  | cons x xs ih =>
    intro best
    simp only [List.foldl_cons]
    by_cases hq : quirkLeB x best = true
    · rw [if_pos hq]
      exact List.mem_cons_of_mem best (ih x)
    · rw [if_neg hq]
      rcases List.mem_cons.mp (ih best) with h | h
      · rw [h]; exact List.mem_cons_self _ _
      · exact List.mem_cons_of_mem _ (List.mem_cons_of_mem _ h)

theorem selectQuirkMin_mem {l : List (List α)} {m : List α}
    (h : selectQuirkMin l = some m) : m ∈ l := by
  cases l with
  | nil => simp [selectQuirkMin] at h
  | cons r rest =>
    rw [selectQuirkMin, Option.some.injEq] at h
    rw [← h]
    exact foldl_quirk_mem rest r

theorem two_le_cons {β : Type} (l : List β) (h : 2 ≤ l.length) :
    ∃ x y t, l = x :: y :: t := by
  cases l with
  | nil => simp at h
  | cons x t =>
    cases t with
    | nil => simp at h
    | cons y t2 => exact ⟨x, y, t2, rfl⟩

/-- The first iteration of the k>1 loop never halts and records the
first-round chunk. -/
theorem chunkStepK_first (rows : List (List α)) (maxv : List α) (cs : Nat)
    (start : List α) (chunks : List (ChunkExec (List α))) :
    chunkStepK rows maxv cs ⟨start, true, chunks⟩ =
      .cont ⟨advanceStartK start ((selectQuirkMin ((rows.filter fun r =>
          lexLtB start r && lexLeB r maxv).take cs)).getD maxv), false,
        chunks ++ [⟨true, start, (selectQuirkMin ((rows.filter fun r =>
          lexLtB start r && lexLeB r maxv).take cs)).getD maxv⟩]⟩ := by
  rw [chunkStepK, if_neg (by simp)]
  rfl

/-- Past the first round the k>1 loop halts as soon as the component-0
overflow comparison fires. -/
theorem chunkStepK_halt (rows : List (List α)) (maxv : List α) (cs : Nat)
    (start : List α) (chunks : List (ChunkExec (List α)))
    (h : headOverflowB start maxv = true) :
    chunkStepK rows maxv cs ⟨start, false, chunks⟩ = .halt chunks := by
  rw [chunkStepK, if_pos ⟨by simp, h⟩]

theorem chunkRunK_mono (rows : List (List α)) (maxv : List α) (cs : Nat) :
    ∀ (f : Nat) (s : LoopSt (List α)) (g : Nat) (L : List (ChunkExec (List α))),
      chunkRunK rows maxv cs f s = some L → f ≤ g →
      chunkRunK rows maxv cs g s = some L := by
  intro f
  induction f with
  | zero => intro s g L h; simp [chunkRunK] at h
  | succ f ih =>
    intro s g L h hfg
    obtain ⟨g2, rfl⟩ : ∃ g2, g = g2 + 1 := ⟨g - 1, by omega⟩
    rw [chunkRunK] at h ⊢
    cases hstep : chunkStepK rows maxv cs s with
    | halt chunks => rw [hstep] at h; exact h
    | cont s2 =>
      rw [hstep] at h
      exact ih s2 g2 L h (by omega)

/-- With k ≥ 2 columns the loop halts on its second iteration: the max seed
`ORDER BY c1,…,ck DESC LIMIT 1` attaches `DESC` only to the last column, so
the seeded max tuple carries the SMALLEST first-column value of the table;
the end installed by round 1 is a table row (or the max vector itself), so
after the component-0 advance the component-0 overflow comparison of round 2
is satisfied. -/
theorem chunkRunK_composite (rows : List (List α)) (k cs : Nat)
    (minv maxv : List α) (hk : 2 ≤ k) (harity : ∀ r ∈ rows, r.length = k)
    (hmaxmem : maxv ∈ rows) (hmaxmin : ∀ r ∈ rows, quirkLeB maxv r = true)
    (hhead : rows.head? = some minv) :
    ∃ L, chunkRunK rows maxv cs 2 ⟨minv, true, []⟩ = some L := by
  have hminmem : minv ∈ rows := by
    cases rows with
    | nil => simp at hhead
    | cons a t =>
      simp only [List.head?_cons, Option.some.injEq] at hhead
      rw [← hhead]
      exact List.mem_cons_self _ _
  have hstep1 := chunkStepK_first rows maxv cs minv []
  set e : List α := (selectQuirkMin ((rows.filter fun r =>
      lexLtB minv r && lexLeB r maxv).take cs)).getD maxv with hedef
  have hemem : e ∈ rows := by
    rw [hedef]
    rcases hsel : selectQuirkMin ((rows.filter fun r =>
        lexLtB minv r && lexLeB r maxv).take cs) with _ | e2
    · simpa using hmaxmem
    · simp only [Option.getD_some]
      exact (List.mem_filter.mp
        (List.take_subset _ _ (selectQuirkMin_mem hsel))).1
  obtain ⟨m0, m1, ms, hm⟩ := two_le_cons maxv (by rw [harity maxv hmaxmem]; exact hk)
  obtain ⟨e0, e1, es, he⟩ := two_le_cons e (by rw [harity e hemem]; exact hk)
  obtain ⟨n0, n1, ns, hn⟩ := two_le_cons minv (by rw [harity minv hminmem]; exact hk)
  have hq : quirkLeB maxv e = true := hmaxmin e hemem
  rw [hm, he] at hq
  have h0 : m0 ≤ e0 := quirkLeB_head_le hq
  have hadv : advanceStartK minv e = e0 :: n1 :: ns := by
    rw [hn, he]
    rfl
  have hover : headOverflowB (advanceStartK minv e) maxv = true := by
    rw [hadv, hm]
    simp [headOverflowB, h0]
  refine ⟨[⟨true, minv, e⟩], ?_⟩
  show chunkRunK rows maxv cs (1 + 1) ⟨minv, true, []⟩ = some [⟨true, minv, e⟩]
  rw [chunkRunK, hstep1]
  show chunkRunK rows maxv cs (0 + 1) _ = some [⟨true, minv, e⟩]
  rw [chunkRunK, chunkStepK_halt rows maxv cs _ _ hover]
  simp

/-- C5: for every finite table — any key arity over any linearly ordered key
value domain — and every `chunkSize ≥ 1`, the `ChunkUpdate` loop terminates,
reaching its `break` within `⌈n / chunkSize⌉ + 1` iterations, where `n` is
the number of rows whose key lies in `[min, max]` as seeded.  Single-column
tables (integer, text or temporal keys compare as one server scalar) follow
the scalar branches of the loop; tables with k ≥ 2 key columns follow the
tuple branches, whose max seed `ORDER BY c1,…,ck DESC LIMIT 1` attaches
`DESC` only to the last column, so the component-0 overflow check of line
427 fires on the second iteration. -/
theorem chunkUpdate_terminates_within_bound :
    (∀ (β : Type) [LinearOrder β], ∀ (keys : List β) (minv maxv : β) (cs : Nat),
      keys.Sorted (· < ·) → keys ≠ [] →
      keys.head? = some minv → keys.getLast? = some maxv → 1 ≤ cs →
      ∃ L, chunkUpdate keys minv maxv cs
        (ceilDiv (keys.filter fun k =>
          decide (minv ≤ k) && decide (k ≤ maxv)).length cs + 1) = some L) ∧
    (∀ (β : Type) [LinearOrder β], ∀ (rows : List (List β)) (k cs : Nat)
      (minv maxv : List β),
      2 ≤ k → (∀ r ∈ rows, r.length = k) →
      rows.Pairwise (fun x y => lexLtB x y = true) →
      rows.head? = some minv → maxv ∈ rows →
      (∀ r ∈ rows, quirkLeB maxv r = true) → 1 ≤ cs →
      ∃ L, chunkUpdateK rows minv maxv cs
        (ceilDiv (rows.filter fun r =>
          lexLeB minv r && lexLeB r maxv).length cs + 1) = some L) := by
  constructor
  · intro β _ keys minv maxv cs hs hne hhead hlast hcs
    exact chunkUpdate_single_key_bound keys minv maxv cs hs hne hhead hlast hcs
  · intro β _ rows k cs minv maxv hk harity hsorted hhead hmaxmem hmaxmin hcs
    obtain ⟨L, hL⟩ := chunkRunK_composite rows k cs minv maxv hk harity
      hmaxmem hmaxmin hhead
    refine ⟨L, chunkRunK_mono rows maxv cs 2 ⟨minv, true, []⟩ _ L hL ?_⟩
    have hminmem : minv ∈ rows := by
      cases rows with
      | nil => simp at hhead
      | cons a t =>
        simp only [List.head?_cons, Option.some.injEq] at hhead
        rw [← hhead]
        exact List.mem_cons_self _ _
    have hminmax : lexLtB maxv minv = false := by
      cases rows with
      | nil => simp at hhead
      | cons a t =>
        simp only [List.head?_cons, Option.some.injEq] at hhead
        subst hhead
        rcases List.mem_cons.mp hmaxmem with rfl | hmt
        · exact lexLtB_irrefl maxv
        · exact lexLtB_asymm ((List.pairwise_cons.mp hsorted).1 maxv hmt)
    have hmem : minv ∈ rows.filter fun r => lexLeB minv r && lexLeB r maxv :=
      List.mem_filter.mpr ⟨hminmem, by simp [lexLeB, lexLtB_irrefl, hminmax]⟩
    have hn : 1 ≤ (rows.filter fun r => lexLeB minv r && lexLeB r maxv).length :=
      List.length_pos.mpr (List.ne_nil_of_mem hmem)
    have hdiv : 1 ≤ ceilDiv
        (rows.filter fun r => lexLeB minv r && lexLeB r maxv).length cs := by
      rw [ceilDiv]
      rw [Nat.one_le_div_iff (by omega : 0 < cs)]
      omega
    omega

/-- Witness for C5: the single-column part at the integer-key table with keys
1, 2, 3 and chunk size 1; the composite part at the two-column table with
rows (1,1), (1,2), (2,1) (the composite scenario of the specification) and
chunk size 1. -/
theorem chunkUpdate_terminates_within_bound_witness :
    (∃ L, chunkUpdate [1, 2, 3] (1 : Int) 3 1
      (ceilDiv ([1, 2, 3].filter fun k =>
        decide ((1 : Int) ≤ k) && decide (k ≤ (3 : Int))).length 1 + 1) = some L) ∧
    (∃ L, chunkUpdateK ([[1, 1], [1, 2], [2, 1]] : List (List Int)) [1, 1] [1, 2] 1
      (ceilDiv (([[1, 1], [1, 2], [2, 1]] : List (List Int)).filter fun r =>
        lexLeB [1, 1] r && lexLeB r [1, 2]).length 1 + 1) = some L) :=
  ⟨chunkUpdate_terminates_within_bound.1 Int [1, 2, 3] 1 3 1 (by decide) (by decide)
      (by decide) (by decide) (by decide),
   chunkUpdate_terminates_within_bound.2 Int [[1, 1], [1, 2], [2, 1]] 2 1 [1, 1] [1, 2]
      (by decide) (by decide) (by decide) (by decide) (by decide) (by decide)
      (by decide)⟩

end GoChunk
